import Mathlib

/-!
Verification of the token classification and cleaning pipeline of the
wordserve corpus-cleaning scripts (`scripts/filter.py` and
`scripts/filter_corpus.py`).

The Python core is embedded shallowly: strings are Lean `String`s
(reasoned about through their `List Char` data), the regular expressions
used by the scripts are translated into explicit recursive scans with the
same matching semantics, and each script's `is_gibberish` / `clean_text`
pair lives in its own namespace (`filter`, `filter_corpus`).

Modelling notes on character classes: the scripts only ever distinguish
ASCII characters (`[a-z]`, `[aeiou]`, `\d`, `@`, `<`, `>`), so characters
are compared through their code points.  Python's `str.split()` splits on
Unicode whitespace; the model covers the whitespace characters up to
U+00A0 (all the ones ASCII texts can contain), and `str.lower()` is
modelled on the ASCII range — every character outside `a`–`z` is deleted
by the normalization step immediately afterwards either way.
-/

/-- `\d` of the Python regexes: an ASCII digit (code points 48–57). -/
def isDigitCh (c : Char) : Bool := 48 ≤ c.toNat && c.toNat ≤ 57

/-- The character class kept by `re.sub(r"[^a-z]", "", w)`: an ASCII
lowercase letter (code points 97–122). -/
def isLowerAlpha (c : Char) : Bool := 97 ≤ c.toNat && c.toNat ≤ 122

/-- The vowel class `[aeiou]` searched by `is_gibberish`. -/
def isVowel (c : Char) : Bool :=
  c == 'a' || c == 'e' || c == 'i' || c == 'o' || c == 'u'

/-- Whitespace as recognized by Python's `str.split()` / `str.strip()`,
restricted to code points below U+0100 (tab, LF, VT, FF, CR, space, the
C1 separators FS/GS/RS/US, NEL and NBSP). -/
def isPyWs (c : Char) : Bool :=
  c == ' ' || c == '\t' || c == '\n' || c == '\r' || c == '\x0b' ||
  c == '\x0c' || c == '\x1c' || c == '\x1d' || c == '\x1e' || c == '\x1f' ||
  c == '\x85' || c == '\xa0'

/-- Python's `str.lower()` on the ASCII range: `A`–`Z` (65–90) maps to
`a`–`z`, everything else is unchanged. -/
def pyLower (c : Char) : Char :=
  if 65 ≤ c.toNat && c.toNat ≤ 90 then Char.ofNat (c.toNat + 32) else c

/-- Does `p` occur at the very start of `s`?  (Helper for substring
containment, Python's `p in s`.) -/
def startsWith : List Char → List Char → Bool
  | [], _ => true
  | _ :: _, [] => false
  | p :: ps, c :: cs => p == c && startsWith ps cs

/-- Python's substring test `p in s`: `p` occurs contiguously in `s`. -/
def containsSub (p : List Char) : List Char → Bool
  | [] => startsWith p []
  | c :: cs => startsWith p (c :: cs) || containsSub p cs

/-- `re.search(r"(.)\1{3,}", w)`: some character other than a newline
(`.` does not match `\n`) occurs at least four times consecutively. -/
def hasRepeat4 : List Char → Bool
  | a :: b :: c :: d :: rest =>
      (!(a == '\n') && a == b && b == c && c == d) ||
        hasRepeat4 (b :: c :: d :: rest)
  | _ => false

/-- Head-is-a-digit test used by the `@@\d+` scan. -/
def headIsDigit : List Char → Bool
  | [] => false
  | c :: _ => isDigitCh c

/-- Scanner state for the `@@\d+` substitution: `norm` is ordinary
scanning, `pend` means one `'@'` has been read and not yet emitted,
`skip` means a match was found and its digit run is being consumed. -/
inductive MarkerState where
  | norm : MarkerState
  | pend : MarkerState
  | skip : MarkerState

/-- Left-to-right scan implementing `re.sub(r"@@\d+", " ", text)`: each
leftmost occurrence of `@@` followed by a maximal nonempty run of digits
is replaced by one space, and scanning resumes right after the digits.
An `@` that does not begin such a match is emitted unchanged and the scan
moves one character forward, exactly as the regex engine does. -/
def subMarkersAux : MarkerState → List Char → List Char
  | .norm, [] => []
  | .pend, [] => ['@']
  | .skip, [] => []
  | .norm, c :: cs =>
      if c == '@' then subMarkersAux .pend cs
      else c :: subMarkersAux .norm cs
  | .pend, c :: cs =>
      if c == '@' then
        if headIsDigit cs then ' ' :: subMarkersAux .skip cs
        else '@' :: subMarkersAux .pend cs
      else '@' :: c :: subMarkersAux .norm cs
  | .skip, c :: cs =>
      if isDigitCh c then subMarkersAux .skip cs
      else if c == '@' then subMarkersAux .pend cs
      else c :: subMarkersAux .norm cs

/-- `re.sub(r"@@\d+", " ", text)`. -/
def subMarkers (l : List Char) : List Char := subMarkersAux .norm l

/-- Left-to-right scan implementing `re.sub(r"<[^>]+>", " ", text)`.
The flag says whether a `<` has been read and a match is pending; `buf`
holds the characters read since that `<`, in reverse.  A pending `<`
closed by `>` after at least one interposed character is a match and
becomes one space; `<>` (empty interior) and a `<` never closed are no
match, so their characters are emitted unchanged — exactly the leftmost
matches of the regex, since `[^>]+` stops at the first `>`. -/
def subTagsAux : Bool → List Char → List Char → List Char
  | false, _, [] => []
  | true, buf, [] => '<' :: buf.reverse
  | false, _, c :: cs =>
      if c == '<' then subTagsAux true [] cs
      else c :: subTagsAux false [] cs
  | true, buf, c :: cs =>
      if c == '>' then
        if buf.isEmpty then '<' :: '>' :: subTagsAux false [] cs
        else ' ' :: subTagsAux false [] cs
      else subTagsAux true (c :: buf) cs

/-- `re.sub(r"<[^>]+>", " ", text)`. -/
def subTags (l : List Char) : List Char := subTagsAux false [] l

/-- Accumulator version of Python's `str.split()`: `cur` holds the
characters of the token currently being read, in reverse. -/
def splitWsAux : List Char → List Char → List (List Char)
  | cur, [] => if cur.isEmpty then [] else [cur.reverse]
  | cur, c :: cs =>
      if isPyWs c then
        if cur.isEmpty then splitWsAux [] cs
        else cur.reverse :: splitWsAux [] cs
      else splitWsAux (c :: cur) cs

/-- Python's `text.split()`: split on runs of whitespace, discarding
empty fragments. -/
def splitWs (l : List Char) : List (List Char) := splitWsAux [] l

/-- Per-token normalization: `word.lower()` then
`re.sub(r"[^a-z]", "", ...)`. -/
def normalize_word (w : List Char) : List Char :=
  (w.map pyLower).filter isLowerAlpha

/-- Python's `" ".join(words)`. -/
def joinWords : List (List Char) → List Char
  | [] => []
  | [w] => w
  | w :: rest => w ++ ' ' :: joinWords rest

/-- The shared body of the two `clean_text` loops: strip `@@\d+` markers
and `<...>` tags, split on whitespace, normalize each token, and keep it
when it is nonempty, not a stop word, and not gibberish.  The gibberish
predicate of the calling script is a parameter. -/
def cleanPipeline (gib : String → Bool) (sw : List String) (text : String) :
    List (List Char) :=
  ((splitWs (subTags (subMarkers text.data))).map normalize_word).filter
    (fun w => !w.isEmpty && !(sw.contains (String.mk w)) &&
      !(gib (String.mk w)))

/-- `" ".join` of the surviving tokens, as the scripts return it. -/
def cleanJoin (gib : String → Bool) (sw : List String) (text : String) :
    String :=
  String.mk (joinWords (cleanPipeline gib sw text))

namespace filter

/-- The keyboard-pattern table `kbd_patt` of `scripts/filter.py`,
verbatim. -/
def kbd_patt : List String :=
  ["qwert", "asdfg", "zxcvb", "yuiop", "hjkl", "bnm", "poiuy", "lkjhg",
   "fdsa", "mnbvc", "qazwsx", "edcrfv", "tgbnhy", "ujmki", "plm", "qaz",
   "wsx", "edc", "rfv", "tgb", "yhn", "ujm", "ikm", " plm"]

/-- `is_gibberish` of `scripts/filter.py`: length out of `[2, 32]`, a
character repeated four times in a row, a vowel-free word longer than 5,
or a keyboard pattern. -/
def is_gibberish (w : String) : Bool :=
  if w.length < 2 then true
  else if w.length > 32 then true
  else if hasRepeat4 w.data then true
  else if decide (w.length > 5) && !(w.data.any isVowel) then true
  else kbd_patt.any (fun p => containsSub p.data w.data)

/-- `clean_text` of `scripts/filter.py`: empty and whitespace-only input
short-circuits to `""` (`if not text or not text.strip()`); otherwise the
shared pipeline runs with this script's gibberish predicate. -/
def clean_text (text : String) (sw : List String) : String :=
  if text.data.all isPyWs then "" else cleanJoin is_gibberish sw text

/-- `kbd_patt` with its last entry `" plm"` removed, for the redundancy
analysis of that entry. -/
def kbd_patt_noSplm : List String :=
  ["qwert", "asdfg", "zxcvb", "yuiop", "hjkl", "bnm", "poiuy", "lkjhg",
   "fdsa", "mnbvc", "qazwsx", "edcrfv", "tgbnhy", "ujmki", "plm", "qaz",
   "wsx", "edc", "rfv", "tgb", "yhn", "ujm", "ikm"]

/-- `is_gibberish` of `scripts/filter.py` with the `" plm"` table entry
removed and nothing else changed. -/
def is_gibberish_noSplm (w : String) : Bool :=
  if w.length < 2 then true
  else if w.length > 32 then true
  else if hasRepeat4 w.data then true
  else if decide (w.length > 5) && !(w.data.any isVowel) then true
  else kbd_patt_noSplm.any (fun p => containsSub p.data w.data)

end filter

namespace filter_corpus

/-- The keyboard-pattern table `keyboard_patterns` of
`scripts/filter_corpus.py`, verbatim. -/
def keyboard_patterns : List String :=
  ["qwert", "asdfg", "zxcvb", "yuiop", "hjkl", "bnm", "poiuy", "lkjhg",
   "fdsa", "mnbvc"]

/-- `is_gibberish` of `scripts/filter_corpus.py`: identical to
`filter.py` except the upper length cap is 25 and the pattern table is
shorter. -/
def is_gibberish (w : String) : Bool :=
  if w.length < 2 then true
  else if w.length > 25 then true
  else if hasRepeat4 w.data then true
  else if decide (w.length > 5) && !(w.data.any isVowel) then true
  else keyboard_patterns.any (fun p => containsSub p.data w.data)

/-- `clean_text` of `scripts/filter_corpus.py`: the shared pipeline with
this script's gibberish predicate; there is no empty-input guard. -/
def clean_text (text : String) (sw : List String) : String :=
  cleanJoin is_gibberish sw text

end filter_corpus

/-- The keyboard-pattern entries present in `filter.py`'s table but not
in `filter_corpus.py`'s. -/
def fpOnlyPatterns : List String :=
  ["qazwsx", "edcrfv", "tgbnhy", "ujmki", "plm", "qaz", "wsx", "edc",
   "rfv", "tgb", "yhn", "ujm", "ikm", " plm"]

/-- The shape every `clean_text` result must have: empty, or a nonempty
list of nonempty all-lowercase-alphabetic tokens joined by single spaces;
in particular it contains no angle bracket, no digit, and no `@@`
substring. -/
def cleanOutputOK (s : String) : Prop :=
  (s = "" ∨ ∃ ws : List (List Char), ws ≠ [] ∧
      (∀ w ∈ ws, w ≠ [] ∧ ∀ c ∈ w, isLowerAlpha c = true) ∧
      s.data = joinWords ws) ∧
  (∀ c ∈ s.data, c ≠ '<' ∧ c ≠ '>' ∧ isDigitCh c = false) ∧
  containsSub ['@', '@'] s.data = false

/-! ### Character-level facts -/

theorem isLowerAlpha_toNat (c : Char) (h : isLowerAlpha c = true) :
    97 ≤ c.toNat ∧ c.toNat ≤ 122 := by
  simpa [isLowerAlpha, Bool.and_eq_true, decide_eq_true_eq] using h

theorem toNat_of_ws (c : Char) (h : isPyWs c = true) :
    c.toNat = 32 ∨ c.toNat = 9 ∨ c.toNat = 10 ∨ c.toNat = 13 ∨
    c.toNat = 11 ∨ c.toNat = 12 ∨ c.toNat = 28 ∨ c.toNat = 29 ∨
    c.toNat = 30 ∨ c.toNat = 31 ∨ c.toNat = 133 ∨ c.toNat = 160 := by
  simp only [isPyWs, Bool.or_eq_true, beq_iff_eq] at h
  rcases h with
    ((((((((((rfl | rfl) | rfl) | rfl) | rfl) | rfl) | rfl) | rfl) | rfl) |
      rfl) | rfl) | rfl <;> simp

theorem not_ws_of_lower (c : Char) (h : isLowerAlpha c = true) :
    isPyWs c = false := by
  by_contra hne
  rw [Bool.not_eq_false] at hne
  have h1 := isLowerAlpha_toNat c h
  have h2 := toNat_of_ws c hne
  omega

theorem not_digit_of_lower_or_space (c : Char)
    (h : isLowerAlpha c = true ∨ c = ' ') : isDigitCh c = false := by
  rcases h with h | rfl
  · have h1 := isLowerAlpha_toNat c h
    have : decide (c.toNat ≤ 57) = false := decide_eq_false (by omega)
    simp [isDigitCh, this]
  · decide

/-! ### Facts about `containsSub` -/

theorem mem_of_containsSub_cons (a : Char) (p l : List Char)
    (h : containsSub (a :: p) l = true) : a ∈ l := by
  induction l with
  | nil => simp [containsSub, startsWith] at h
  | cons c cs ih =>
    simp only [containsSub, Bool.or_eq_true] at h
    rcases h with h | h
    · simp only [startsWith, Bool.and_eq_true, beq_iff_eq] at h
      exact h.1 ▸ List.mem_cons_self c cs
    · exact List.mem_cons_of_mem c (ih h)

theorem containsSub_of_cons (a : Char) (p l : List Char)
    (h : containsSub (a :: p) l = true) : containsSub p l = true := by
  induction l with
  | nil => simp [containsSub, startsWith] at h
  | cons c cs ih =>
    simp only [containsSub, Bool.or_eq_true] at h
    simp only [containsSub, Bool.or_eq_true]
    rcases h with h | h
    · simp only [startsWith, Bool.and_eq_true] at h
      cases p with
      | nil => left; rfl
      | cons b q =>
        right
        cases cs with
        | nil => simp [startsWith] at h
        | cons d ds =>
          -- `b :: q` matches at the start of `d :: ds`, hence occurs in it
          simp only [containsSub, Bool.or_eq_true]
          left
          exact h.2
    · exact Or.inr (ih h)

/-! ### Identity of the substitution scans on texts without their
trigger characters -/

theorem subMarkers_id (l : List Char) (h : '@' ∉ l) : subMarkers l = l := by
  unfold subMarkers
  induction l with
  | nil => rfl
  | cons c cs ih =>
    have hc : (c == '@') = false := by
      rw [beq_eq_false_iff_ne]
      exact fun hEq => (hEq ▸ h) (List.mem_cons_self _ _)
    simp only [subMarkersAux, hc, if_false, Bool.false_eq_true,
      List.cons.injEq, true_and]
    exact ih (fun hm => h (List.mem_cons_of_mem c hm))

theorem subTags_id (l : List Char) (h : '<' ∉ l) : subTags l = l := by
  unfold subTags
  induction l with
  | nil => rfl
  | cons c cs ih =>
    have hc : (c == '<') = false := by
      rw [beq_eq_false_iff_ne]
      exact fun hEq => (hEq ▸ h) (List.mem_cons_self _ _)
    simp only [subTagsAux, hc, if_false, Bool.false_eq_true,
      List.cons.injEq, true_and]
    exact ih (fun hm => h (List.mem_cons_of_mem c hm))

/-! ### `splitWs` facts -/

theorem splitWsAux_all_ws (l : List Char) (h : ∀ c ∈ l, isPyWs c = true) :
    splitWsAux [] l = [] := by
  induction l with
  | nil => rfl
  | cons c cs ih =>
    have hc : isPyWs c = true := h c (List.mem_cons_self _ _)
    simp only [splitWsAux, hc, if_true, List.isEmpty_nil]
    exact ih (fun x hx => h x (List.mem_cons_of_mem c hx))

theorem splitWsAux_chunk (w : List Char) (hw : ∀ c ∈ w, isPyWs c = false) :
    ∀ (cur l : List Char),
      splitWsAux cur (w ++ l) = splitWsAux (w.reverse ++ cur) l := by
  induction w with
  | nil => intro cur l; rfl
  | cons c w' ih =>
    intro cur l
    have hc : isPyWs c = false := hw c (List.mem_cons_self _ _)
    simp only [List.cons_append, splitWsAux, hc, Bool.false_eq_true,
      if_false, List.append_eq]
    rw [ih (fun x hx => hw x (List.mem_cons_of_mem c hx)) (c :: cur) l]
    simp [List.append_assoc]

theorem splitWs_joinWords (ws : List (List Char))
    (h : ∀ w ∈ ws, w ≠ [] ∧ ∀ c ∈ w, isPyWs c = false) :
    splitWs (joinWords ws) = ws := by
  induction ws with
  | nil => rfl
  | cons w rest ih =>
    obtain ⟨hw, hwc⟩ := h w (List.mem_cons_self _ _)
    have hrev : ¬ w.reverse.isEmpty = true := by
      simp only [List.isEmpty_iff, List.reverse_eq_nil_iff]
      exact hw
    cases rest with
    | nil =>
      show splitWsAux [] (joinWords [w]) = [w]
      have : joinWords [w] = w ++ [] := by simp [joinWords]
      rw [this, splitWsAux_chunk w hwc [] []]
      simp only [List.append_nil, splitWsAux]
      rw [if_neg hrev]
      simp
    | cons r t =>
      show splitWsAux [] (joinWords (w :: r :: t)) = w :: r :: t
      have hj : joinWords (w :: r :: t) = w ++ ' ' :: joinWords (r :: t) :=
        rfl
      rw [hj, splitWsAux_chunk w hwc [] (' ' :: joinWords (r :: t))]
      simp only [List.append_nil, splitWsAux, show isPyWs ' ' = true from
        rfl, if_true]
      rw [if_neg hrev]
      simp only [List.reverse_reverse, List.cons.injEq, true_and]
      exact ih (fun x hx => h x (List.mem_cons_of_mem w hx))

/-! ### Normalization facts -/

theorem pyLower_id (c : Char) (h : isLowerAlpha c = true) :
    pyLower c = c := by
  obtain ⟨h1, h2⟩ := isLowerAlpha_toNat c h
  unfold pyLower
  have : decide (c.toNat ≤ 90) = false := decide_eq_false (by omega)
  simp [this]

theorem normalize_word_all_lower (w : List Char) :
    ∀ c ∈ normalize_word w, isLowerAlpha c = true := by
  intro c hc
  exact List.of_mem_filter hc

theorem normalize_word_id (w : List Char)
    (h : ∀ c ∈ w, isLowerAlpha c = true) : normalize_word w = w := by
  unfold normalize_word
  rw [List.map_congr_left (fun c hc => pyLower_id c (h c hc)), List.map_id']
  exact List.filter_eq_self.mpr h

/-! ### Characters of a joined token list -/

theorem joinWords_chars (ws : List (List Char))
    (h : ∀ w ∈ ws, ∀ c ∈ w, isLowerAlpha c = true) :
    ∀ c ∈ joinWords ws, isLowerAlpha c = true ∨ c = ' ' := by
  induction ws with
  | nil => intro c hc; simp [joinWords] at hc
  | cons w rest ih =>
    intro c hc
    cases rest with
    | nil =>
      exact Or.inl (h w (List.mem_cons_self _ _) c hc)
    | cons r t =>
      have hj : joinWords (w :: r :: t) = w ++ ' ' :: joinWords (r :: t) :=
        rfl
      rw [hj] at hc
      rcases List.mem_append.mp hc with hc | hc
      · exact Or.inl (h w (List.mem_cons_self _ _) c hc)
      · rcases List.mem_cons.mp hc with rfl | hc
        · exact Or.inr rfl
        · exact ih (fun x hx => h x (List.mem_cons_of_mem w hx)) c hc

/-! ### What survives the pipeline -/

theorem cleanPipeline_mem (gib : String → Bool) (sw : List String)
    (text : String) (w : List Char) (hw : w ∈ cleanPipeline gib sw text) :
    w ≠ [] ∧ (∀ c ∈ w, isLowerAlpha c = true) ∧
      sw.contains (String.mk w) = false ∧ gib (String.mk w) = false := by
  unfold cleanPipeline at hw
  have hpred := List.of_mem_filter hw
  have hmem := List.mem_of_mem_filter hw
  obtain ⟨v, _, hv⟩ := List.mem_map.mp hmem
  simp only [Bool.and_eq_true, Bool.not_eq_true'] at hpred
  obtain ⟨⟨hne, hsw⟩, hgib⟩ := hpred
  refine ⟨?_, ?_, hsw, hgib⟩
  · simpa [List.isEmpty_iff] using hne
  · intro c hc
    exact normalize_word_all_lower v c (hv ▸ hc)

/-! ### The cleaned output re-cleans to itself -/

theorem not_mem_of_chars (l : List Char) (d : Char)
    (h : ∀ c ∈ l, isLowerAlpha c = true ∨ c = ' ')
    (hd : isLowerAlpha d = false) (hd' : d ≠ ' ') : d ∉ l := by
  intro hm
  rcases h d hm with hc | hc
  · rw [hd] at hc; cases hc
  · exact hd' hc

theorem cleanJoin_chars (gib : String → Bool) (sw : List String)
    (text : String) :
    ∀ c ∈ (cleanJoin gib sw text).data,
      isLowerAlpha c = true ∨ c = ' ' :=
  joinWords_chars _
    (fun w hw => (cleanPipeline_mem gib sw text w hw).2.1)

theorem cleanPipeline_fixed (gib : String → Bool) (sw : List String)
    (text : String) :
    cleanPipeline gib sw (cleanJoin gib sw text) =
      cleanPipeline gib sw text := by
  have hmem := cleanPipeline_mem gib sw text
  have hchars : ∀ c ∈ joinWords (cleanPipeline gib sw text),
      isLowerAlpha c = true ∨ c = ' ' :=
    joinWords_chars _ (fun w hw => (hmem w hw).2.1)
  have hdata : (cleanJoin gib sw text).data =
      joinWords (cleanPipeline gib sw text) := rfl
  conv_lhs => rw [cleanPipeline]
  rw [hdata,
    subMarkers_id _ (not_mem_of_chars _ _ hchars (by decide) (by decide)),
    subTags_id _ (not_mem_of_chars _ _ hchars (by decide) (by decide)),
    splitWs_joinWords _ (fun w hw => ⟨(hmem w hw).1,
      fun c hc => not_ws_of_lower c ((hmem w hw).2.1 c hc)⟩),
    List.map_congr_left
      (fun w hw => normalize_word_id w ((hmem w hw).2.1)),
    List.map_id']
  refine List.filter_eq_self.mpr (fun w hw => ?_)
  obtain ⟨hne, _, hsw, hgib⟩ := hmem w hw
  simp only [Bool.and_eq_true, Bool.not_eq_true', hsw, hgib, and_true,
    true_and]
  simpa [List.isEmpty_iff] using hne

theorem cleanJoin_fixed (gib : String → Bool) (sw : List String)
    (text : String) :
    cleanJoin gib sw (cleanJoin gib sw text) = cleanJoin gib sw text := by
  show String.mk
      (joinWords (cleanPipeline gib sw (cleanJoin gib sw text))) =
    cleanJoin gib sw text
  rw [cleanPipeline_fixed]
  rfl

/-! ### Whitespace-only input cleans to the empty string -/

theorem cleanPipeline_ws (gib : String → Bool) (sw : List String)
    (t : String) (h : t.data.all isPyWs = true) :
    cleanPipeline gib sw t = [] := by
  have hall : ∀ c ∈ t.data, isPyWs c = true := List.all_eq_true.mp h
  unfold cleanPipeline
  rw [subMarkers_id _ (fun hm => absurd (hall _ hm) (by decide)),
    subTags_id _ (fun hm => absurd (hall _ hm) (by decide)),
    show splitWs t.data = [] from splitWsAux_all_ws t.data hall]
  rfl

theorem cleanJoin_ws (gib : String → Bool) (sw : List String) (t : String)
    (h : t.data.all isPyWs = true) : cleanJoin gib sw t = "" := by
  show String.mk (joinWords (cleanPipeline gib sw t)) = ""
  rw [cleanPipeline_ws gib sw t h]
  rfl

/-- The joined output of a nonempty surviving-token list starts with the
first token. -/
theorem joinWords_cons (w : List Char) (rest : List (List Char)) :
    ∃ X, joinWords (w :: rest) = w ++ X := by
  cases rest with
  | nil => exact ⟨[], by simp [joinWords]⟩
  | cons r t => exact ⟨' ' :: joinWords (r :: t), rfl⟩

/-- A nonempty cleaned output is not whitespace-only (its first character
is a lowercase letter). -/
theorem cleanJoin_not_ws (gib : String → Bool) (sw : List String)
    (text : String) (w : List Char) (rest : List (List Char))
    (hk : cleanPipeline gib sw text = w :: rest) :
    (cleanJoin gib sw text).data.all isPyWs = false := by
  have hmem := cleanPipeline_mem gib sw text w
    (hk ▸ List.mem_cons_self w rest)
  obtain ⟨hne, hlower, -, -⟩ := hmem
  obtain ⟨c, w', rfl⟩ : ∃ c w', w = c :: w' := by
    cases w with
    | nil => exact absurd rfl hne
    | cons c w' => exact ⟨c, w', rfl⟩
  have hdata : (cleanJoin gib sw text).data =
      joinWords ((c :: w') :: rest) := by
    unfold cleanJoin
    rw [hk]
  obtain ⟨X, hX⟩ := joinWords_cons (c :: w') rest
  by_contra hcon
  rw [Bool.not_eq_false, List.all_eq_true] at hcon
  have hcmem : c ∈ (cleanJoin gib sw text).data := by
    rw [hdata, hX]
    exact List.mem_append_left _ (List.mem_cons_self _ _)
  have := hcon c hcmem
  rw [not_ws_of_lower c (hlower c (List.mem_cons_self _ _))] at this
  cases this

/-! ### Output-shape lemmas -/

theorem cleanOutputOK_empty : cleanOutputOK "" := by
  refine ⟨Or.inl rfl, ?_, by decide⟩
  intro c hc
  simp at hc

theorem cleanOutputOK_cleanJoin (gib : String → Bool) (sw : List String)
    (text : String) : cleanOutputOK (cleanJoin gib sw text) := by
  have hmem := cleanPipeline_mem gib sw text
  have hchars := cleanJoin_chars gib sw text
  refine ⟨?_, ?_, ?_⟩
  · cases hk : cleanPipeline gib sw text with
    | nil =>
      left
      show String.mk (joinWords (cleanPipeline gib sw text)) = ""
      rw [hk]
      rfl
    | cons w rest =>
      right
      refine ⟨w :: rest, by simp, ?_, ?_⟩
      · intro v hv
        exact ⟨(hmem v (hk ▸ hv)).1, (hmem v (hk ▸ hv)).2.1⟩
      · show joinWords (cleanPipeline gib sw text) = joinWords (w :: rest)
        rw [hk]
  · intro c hc
    rcases hchars c hc with h | rfl
    · have ht := isLowerAlpha_toNat c h
      refine ⟨?_, ?_, not_digit_of_lower_or_space c (Or.inl h)⟩
      · intro hEq
        rw [hEq] at ht
        exact absurd ht (by decide)
      · intro hEq
        rw [hEq] at ht
        exact absurd ht (by decide)
    · exact ⟨by decide, by decide, by decide⟩
  · by_contra hcon
    rw [Bool.not_eq_false] at hcon
    have hat := mem_of_containsSub_cons '@' ['@'] _ hcon
    rcases hchars '@' hat with h | h
    · exact absurd h (by decide)
    · exact absurd h (by decide)

/-- Splitting a cleaned output on whitespace recovers exactly the list of
surviving tokens. -/
theorem splitWs_cleanJoin (gib : String → Bool) (sw : List String)
    (text : String) :
    splitWs (cleanJoin gib sw text).data = cleanPipeline gib sw text := by
  have hmem := cleanPipeline_mem gib sw text
  show splitWs (joinWords (cleanPipeline gib sw text)) =
    cleanPipeline gib sw text
  exact splitWs_joinWords _ (fun w hw => ⟨(hmem w hw).1,
    fun c hc => not_ws_of_lower c ((hmem w hw).2.1 c hc)⟩)

/-! ### Keyboard-table relations between the two scripts -/

theorem kbd_patt_eq_append :
    filter.kbd_patt = filter_corpus.keyboard_patterns ++ fpOnlyPatterns :=
  rfl

theorem kbd_patt_eq_noSplm :
    filter.kbd_patt = filter.kbd_patt_noSplm ++ [" plm"] := rfl

/-! ### The claims -/

/-- Claim C1: for every raw text and stop-word set, `clean_text` (in both
scripts) returns either the empty string or one or more nonempty
`[a-z]+` tokens joined by single ASCII spaces, with no leading or
trailing whitespace; in particular the result never contains `<`, `>`,
a digit, or an `@@` marker. -/
theorem C1_clean_output (text : String) (sw : List String) :
    cleanOutputOK (filter.clean_text text sw) ∧
    cleanOutputOK (filter_corpus.clean_text text sw) := by
  constructor
  · by_cases hg : text.data.all isPyWs = true
    · rw [filter.clean_text, if_pos hg]
      exact cleanOutputOK_empty
    · rw [filter.clean_text, if_neg hg]
      exact cleanOutputOK_cleanJoin _ sw text
  · exact cleanOutputOK_cleanJoin _ sw text

/-- Claim C3 counterexample: the claim "`is_gibberish("rhythm")` returns
false" is false on the code — `filter.py`'s `is_gibberish` returns true
on `"rhythm"` (length 6 with no vowel trips the vowel-absence rule). -/
theorem C3_counterexample : ¬ (filter.is_gibberish "rhythm" = false) := by
  decide

/-- Claim C3 amended: `is_gibberish("rhythm")` returns true in both
scripts, because `"rhythm"` has length 6 > 5 and contains none of the
vowels `a`, `e`, `i`, `o`, `u`. -/
theorem C3_rhythm : filter.is_gibberish "rhythm" = true ∧
    filter_corpus.is_gibberish "rhythm" = true := by decide

/-- Claim C4: the spec's concrete gibberish examples hold in both
scripts: `"qwerty"`, `"aaaa"`, `"xyzzzzzzzzz"` and `"a"` are gibberish,
`"ok"` is not. -/
theorem C4_examples :
    (filter.is_gibberish "qwerty" = true ∧
      filter_corpus.is_gibberish "qwerty" = true) ∧
    (filter.is_gibberish "aaaa" = true ∧
      filter_corpus.is_gibberish "aaaa" = true) ∧
    (filter.is_gibberish "xyzzzzzzzzz" = true ∧
      filter_corpus.is_gibberish "xyzzzzzzzzz" = true) ∧
    (filter.is_gibberish "a" = true ∧
      filter_corpus.is_gibberish "a" = true) ∧
    (filter.is_gibberish "ok" = false ∧
      filter_corpus.is_gibberish "ok" = false) := by decide

/-- Claim C5: for every stop-word set, cleaning the empty string or any
whitespace-only string yields the empty string in both scripts —
including `filter_corpus.py`, which has no explicit empty-input guard. -/
theorem C5_ws_empty (t : String) (sw : List String)
    (h : t.data.all isPyWs = true) :
    filter.clean_text t sw = "" ∧ filter_corpus.clean_text t sw = "" := by
  constructor
  · rw [filter.clean_text, if_pos h]
  · exact cleanJoin_ws _ sw t h

/-- Claim C5 witness: instances at `""` and `"   \n\t"`. -/
theorem C5_witness :
    (filter.clean_text "" [] = "" ∧ filter_corpus.clean_text "" [] = "") ∧
    (filter.clean_text "   \n\t" ["the"] = "" ∧
      filter_corpus.clean_text "   \n\t" ["the"] = "") :=
  ⟨C5_ws_empty "" [] (by decide), C5_ws_empty "   \n\t" ["the"] (by decide)⟩

/-- Claim C8: with stop words `{"the", "and"}`, cleaning
`"the cat and the hat"` yields exactly `"cat hat"` in both scripts:
every token normalizing into the stop-word set is dropped and the
remaining tokens survive. -/
theorem C8_stopword_exclusion :
    filter.clean_text "the cat and the hat" ["the", "and"] = "cat hat" ∧
    filter_corpus.clean_text "the cat and the hat" ["the", "and"] =
      "cat hat" := by decide

/-- Claim C2: for normalized tokens, a vowel-free token longer than 5 is
gibberish in both scripts; and a vowel-free token of length 2–5 with no
four-fold character repetition and no keyboard-pattern substring is not
gibberish in either script. -/
theorem C2_vowel_rules (w : String)
    (halpha : w.data.all isLowerAlpha = true) :
    (w.length > 5 → w.data.any isVowel = false →
      filter.is_gibberish w = true ∧
      filter_corpus.is_gibberish w = true) ∧
    (2 ≤ w.length → w.length ≤ 5 → w.data.any isVowel = false →
      hasRepeat4 w.data = false →
      (∀ p ∈ filter.kbd_patt, containsSub p.data w.data = false) →
      filter.is_gibberish w = false ∧
      filter_corpus.is_gibberish w = false) := by
  constructor
  · intro hlen hvow
    have hcond : (decide (w.length > 5) && !(w.data.any isVowel)) =
        true := by
      rw [decide_eq_true hlen, hvow]
      rfl
    constructor
    · unfold filter.is_gibberish
      split_ifs with h1 h2 h3 <;> rfl
    · unfold filter_corpus.is_gibberish
      split_ifs with h1 h2 h3 <;> rfl
  · intro hlo hhi hvow hrep hpat
    have hfc : ∀ p ∈ filter_corpus.keyboard_patterns,
        containsSub p.data w.data = false := fun p hp =>
      hpat p (by rw [kbd_patt_eq_append]; exact List.mem_append_left _ hp)
    have hvcond : ¬ ((decide (w.length > 5) && !(w.data.any isVowel)) =
        true) := by
      intro hv
      rw [Bool.and_eq_true] at hv
      have := of_decide_eq_true hv.1
      omega
    have hn1 : ¬ (w.length < 2) := by omega
    have hn32 : ¬ (w.length > 32) := by omega
    have hn25 : ¬ (w.length > 25) := by omega
    have hn3 : ¬ (hasRepeat4 w.data = true) := by
      rw [hrep]
      decide
    constructor
    · unfold filter.is_gibberish
      rw [if_neg hn1, if_neg hn32, if_neg hn3, if_neg hvcond]
      simp only [List.any_eq_false]
      intro p hp h
      rw [hpat p hp] at h
      cases h
    · unfold filter_corpus.is_gibberish
      rw [if_neg hn1, if_neg hn25, if_neg hn3, if_neg hvcond]
      simp only [List.any_eq_false]
      intro p hp h
      rw [hfc p hp] at h
      cases h

/-- Claim C2 witness: `"bcdfgh"` (vowel-free, length 6) is gibberish, and
`"bcdf"` (vowel-free, length 4, no repetition, no keyboard pattern) is
not, in both scripts. -/
theorem C2_witness :
    (filter.is_gibberish "bcdfgh" = true ∧
      filter_corpus.is_gibberish "bcdfgh" = true) ∧
    (filter.is_gibberish "bcdf" = false ∧
      filter_corpus.is_gibberish "bcdf" = false) :=
  ⟨(C2_vowel_rules "bcdfgh" (by decide)).1 (by decide) (by decide),
   (C2_vowel_rules "bcdf" (by decide)).2 (by decide) (by decide)
     (by decide) (by decide) (by decide)⟩

/-- Claim C6: `clean_text` is idempotent in both scripts — cleaning a
cleaned output returns it unchanged, for every input text and stop-word
set (the output is already normalized, stop-word-free and
gibberish-free). -/
theorem C6_idempotent (text : String) (sw : List String) :
    filter.clean_text (filter.clean_text text sw) sw =
      filter.clean_text text sw ∧
    filter_corpus.clean_text (filter_corpus.clean_text text sw) sw =
      filter_corpus.clean_text text sw := by
  constructor
  · by_cases hg : text.data.all isPyWs = true
    · have hout : filter.clean_text text sw = "" := by
        rw [filter.clean_text, if_pos hg]
      rw [hout, filter.clean_text, if_pos (by decide)]
    · have hout : filter.clean_text text sw =
          cleanJoin filter.is_gibberish sw text := by
        rw [filter.clean_text, if_neg hg]
      rw [hout]
      cases hk : cleanPipeline filter.is_gibberish sw text with
      | nil =>
        have hz : cleanJoin filter.is_gibberish sw text = "" := by
          show String.mk
              (joinWords (cleanPipeline filter.is_gibberish sw text)) = ""
          rw [hk]
          rfl
        rw [hz, filter.clean_text, if_pos (by decide)]
      | cons w rest =>
        have hnws := cleanJoin_not_ws filter.is_gibberish sw text w rest hk
        rw [filter.clean_text,
          if_neg (by rw [hnws]; exact Bool.false_ne_true)]
        exact cleanJoin_fixed _ sw text
  · exact cleanJoin_fixed filter_corpus.is_gibberish sw text

/-- Claim C7: token order preservation — splitting the cleaned output on
whitespace recovers exactly the filtered subsequence of normalized
tokens, in the same relative order as the whitespace-delimited tokens of
the markup-stripped input; the surviving sequence is a sublist
(order-preserving subsequence) of the full normalized token sequence. -/
theorem C7_token_order (text : String) (sw : List String) :
    (splitWs (filter.clean_text text sw).data =
        cleanPipeline filter.is_gibberish sw text ∧
      List.Sublist (cleanPipeline filter.is_gibberish sw text)
        ((splitWs (subTags (subMarkers text.data))).map normalize_word)) ∧
    (splitWs (filter_corpus.clean_text text sw).data =
        cleanPipeline filter_corpus.is_gibberish sw text ∧
      List.Sublist (cleanPipeline filter_corpus.is_gibberish sw text)
        ((splitWs (subTags (subMarkers text.data))).map
          normalize_word)) := by
  refine ⟨⟨?_, List.filter_sublist _⟩, ⟨?_, List.filter_sublist _⟩⟩
  · by_cases hg : text.data.all isPyWs = true
    · rw [filter.clean_text, if_pos hg,
        cleanPipeline_ws filter.is_gibberish sw text hg]
      rfl
    · rw [filter.clean_text, if_neg hg]
      exact splitWs_cleanJoin filter.is_gibberish sw text
  · exact splitWs_cleanJoin filter_corpus.is_gibberish sw text

/-- Claim C9: the two `is_gibberish` implementations differ only in the
upper length cap (32 vs 25) and the keyboard table — on every normalized
token of length at most 25 containing none of the patterns present only
in `filter.py`'s table they agree, and there is a token (of length
between 26 and 32 passing the other checks) on which they disagree. -/
theorem C9_variant_divergence :
    (∀ w : String, w.data.all isLowerAlpha = true → w.length ≤ 25 →
      (∀ p ∈ fpOnlyPatterns, containsSub p.data w.data = false) →
      filter.is_gibberish w = filter_corpus.is_gibberish w) ∧
    (∃ w : String, w.data.all isLowerAlpha = true ∧ 26 ≤ w.length ∧
      w.length ≤ 32 ∧ filter.is_gibberish w = false ∧
      filter_corpus.is_gibberish w = true) := by
  constructor
  · intro w _ hlen hpat
    have h32 : ¬ (w.length > 32) := by omega
    have h25 : ¬ (w.length > 25) := by omega
    have hany : filter.kbd_patt.any
        (fun p => containsSub p.data w.data) =
        filter_corpus.keyboard_patterns.any
          (fun p => containsSub p.data w.data) := by
      rw [kbd_patt_eq_append, List.any_append]
      have hz : fpOnlyPatterns.any
          (fun p => containsSub p.data w.data) = false := by
        simp only [List.any_eq_false]
        intro p hp h
        rw [hpat p hp] at h
        cases h
      rw [hz, Bool.or_false]
    unfold filter.is_gibberish filter_corpus.is_gibberish
    rw [if_neg h32, if_neg h25, hany]
  · exact ⟨"ababababababababababababab", by decide, by decide, by decide,
      by decide, by decide⟩

/-- Claim C9 witness: the two implementations agree on `"hello"`. -/
theorem C9_witness :
    filter.is_gibberish "hello" = filter_corpus.is_gibberish "hello" :=
  C9_variant_divergence.1 "hello" (by decide) (by decide) (by decide)

/-- Claim C10: the `" plm"` entry of `filter.py`'s keyboard table is
redundant — removing it changes `is_gibberish` on no input string,
because any string containing `" plm"` also contains `"plm"`, which is in
the table; moreover no normalized token can contain `" plm"` at all,
since it cannot contain a space. -/
theorem C10_splm_redundant :
    (∀ w : String,
      filter.is_gibberish w = filter.is_gibberish_noSplm w) ∧
    (∀ w : String, w.data.all isLowerAlpha = true →
      containsSub " plm".data w.data = false) := by
  constructor
  · intro w
    have hany : filter.kbd_patt.any
        (fun p => containsSub p.data w.data) =
        filter.kbd_patt_noSplm.any
          (fun p => containsSub p.data w.data) := by
      rw [kbd_patt_eq_noSplm, List.any_append]
      cases hsp : containsSub (" plm".data) w.data with
      | false =>
        have hz : [" plm"].any (fun p => containsSub p.data w.data) =
            false := by
          simp only [List.any_cons, List.any_nil, Bool.or_false]
          exact hsp
        rw [hz, Bool.or_false]
      | true =>
        have hplm : containsSub ("plm".data) w.data = true :=
          containsSub_of_cons ' ' ("plm".data) w.data hsp
        have hmem : filter.kbd_patt_noSplm.any
            (fun p => containsSub p.data w.data) = true :=
          List.any_eq_true.mpr ⟨"plm", by decide, hplm⟩
        rw [hmem, Bool.true_or]
    unfold filter.is_gibberish filter.is_gibberish_noSplm
    rw [hany]
  · intro w halpha
    by_contra hcon
    rw [Bool.not_eq_false] at hcon
    have hsp := mem_of_containsSub_cons ' ' ("plm".data) w.data hcon
    have := List.all_eq_true.mp halpha ' ' hsp
    exact absurd this (by decide)

/-- Claim C10 witness: the two predicate variants agree on the string
`" plm"` itself, and a normalized token such as `"abc"` does not contain
the `" plm"` pattern. -/
theorem C10_witness :
    filter.is_gibberish " plm" = filter.is_gibberish_noSplm " plm" ∧
    containsSub " plm".data "abc".data = false :=
  ⟨C10_splm_redundant.1 " plm", C10_splm_redundant.2 "abc" (by decide)⟩
